import Mathlib

/-!
Shallow embedding of the `nabs` monorepo build-graph tool (Rust) in Lean 4.

The embedding follows the source files:
  * `src/paths.rs`    — lexical path normalization (`normalize_path`);
  * `src/types.rs`    — `TargetName`, `Target`, `RawTarget`, `BuildSystemPath`,
                        and the `Repository::resolve_rel_path` default method;
  * `src/graph.rs`    — `TargetGraph` with `add_node`, `add_edge`,
                        `contains_node` and the multi-source `rdeps` traversal
                        (petgraph's `Dfs::from_parts` loop, embedded explicitly);
  * `src/infer.rs`    — the inference runner (`raw_run_inferrers`,
                        `validate_inferred_targets`, `run_inf`,
                        `build_graph_rec`, `build_graph`);
  * `src/infer/core.rs`, `src/infer/icargo.rs`, `src/infer/py_requirements.rs`
                        — the inference plugin datatypes, the Cargo dependency
                        loop and the python-requirements inferrer.

The host is modelled as unix (`cfg!(windows) = false` in the source), so
`BuildSystemPath::get_host_path` and `target_name_to_path` are identity on
the raw string.  Rust `Path::components()` parsing is embedded for unix paths
(no prefix components).  Nontermination and `panic!`/`expect` aborts are both
modelled as `Option.none` (the computation produces no result); `Result` is
modelled as `Except String`.
-/

deriving instance DecidableEq for Except

/-- Character-list splitter mirroring Rust `str::split(sep)` for a one-char
separator (also the semantics of `String.splitOn` for a one-char pattern):
`"" ↦ [""]`, `"a//b" ↦ ["a","","b"]`, `"/x" ↦ ["","x"]`. -/
def splitChars (sep : Char) : List Char → List (List Char)
  | [] => [[]]
  | c :: rest =>
    let r := splitChars sep rest
    if c = sep then [] :: r
    else
      match r with
      | [] => [[c]]
      | g :: gs => (c :: g) :: gs

/-- Split a string on a one-character separator (Rust `str::split(char)`). -/
def splitStr (sep : Char) (s : String) : List String :=
  (splitChars sep s.data).map (fun l => String.mk l)

/-- Boolean prefix test on character lists (Rust `str::starts_with`). -/
def isPrefixCharsB : List Char → List Char → Bool
  | [], _ => true
  | _ :: _, [] => false
  | p :: ps, c :: cs => p == c && isPrefixCharsB ps cs

/-- Rust `str::starts_with` on strings. -/
def startsWithStr (p s : String) : Bool :=
  isPrefixCharsB p.data s.data

/-- Whitespace as trimmed by `str::trim` (inputs here are ASCII). -/
def isWS (c : Char) : Bool :=
  c == ' ' || c == '\t' || c == '\r' || c == '\n'

/-- Rust `str::trim` on character lists. -/
def trimChars (l : List Char) : List Char :=
  ((l.dropWhile isWS).reverse.dropWhile isWS).reverse

/-- The suffix of `hay` starting at the first occurrence of `needle`
(Rust `s.find(needle)` followed by `&s[idx..]`); `none` when absent. -/
def fromFirstOcc (needle : List Char) (hay : List Char) : Option (List Char) :=
  match hay with
  | [] => if needle.isEmpty then some [] else none
  | c :: rest =>
    if isPrefixCharsB needle (c :: rest) then some (c :: rest)
    else fromFirstOcc needle rest

/-- The suffix of `hay` after the first occurrence of `needle`
(Rust `s.find(needle)` followed by `&s[idx + needle.len()..]`). -/
def afterFirstOcc (needle : List Char) (hay : List Char) : Option (List Char) :=
  match hay with
  | [] => if needle.isEmpty then some [] else none
  | c :: rest =>
    if isPrefixCharsB needle (c :: rest) then some ((c :: rest).drop needle.length)
    else afterFirstOcc needle rest

/-- Join path components with `/` (rendering of a relative `PathBuf`). -/
def joinComponents : List String → String
  | [] => ""
  | [c] => c
  | c :: rest => c ++ "/" ++ joinComponents rest

/-! ## `src/types.rs`: `TargetName` -/

/-- Per-component loop of `TargetName::validate` (src/types.rs, lines 65-75):
an empty component or a `.`/`..` component is a validation error. -/
def validateComponents (name : String) : List String → Except String Unit
  | [] => .ok ()
  | c :: rest =>
    if c = "" then
      .error ("detected target name with multiple slashes. This is not allowed. name=" ++ name)
    else if c = "." ∨ c = ".." then
      .error ("'.' and '..' not allowed in target name, name=" ++ name)
    else validateComponents name rest

/-- `TargetName::validate` (src/types.rs, lines 52-78): non-empty, no leading
`/`, and every `/`-separated component non-empty and not `.`/`..`. -/
def TargetName.validate (name : String) : Except String Unit :=
  if name = "" then .error "target name cannot be empty"
  else if startsWithStr "/" name then
    .error ("target name cannot be absolute path: name=" ++ name)
  else validateComponents name (splitStr '/' name)

/-- `TargetName` (src/types.rs): a validated posix-style root-relative name. -/
structure TargetName where
  val : String
deriving DecidableEq

/-- `TargetName::new` (src/types.rs, lines 43-46). -/
def TargetName.new (name : String) : Except String TargetName :=
  match TargetName.validate name with
  | .error e => .error e
  | .ok _ => .ok ⟨name⟩

/-- `Target` (src/types.rs): a `(TargetName, flavor)` pair. -/
structure Target where
  name : TargetName
  flavor : String
deriving DecidableEq

/-- `RawTarget` (src/types.rs): a package directory before inference. -/
structure RawTarget where
  name : TargetName
deriving DecidableEq

/-- `Target::from_raw_target` (src/types.rs, lines 100-105): re-validates the
raw target's name string and pairs it with the flavor. -/
def Target.from_raw_target (rt : RawTarget) (flavor : String) : Except String Target :=
  match TargetName.new rt.name.val with
  | .error e => .error e
  | .ok n => .ok ⟨n, flavor⟩

/-- `PathFormat` (src/types.rs). -/
inductive PathFormat
  | Posix
  | Host
deriving DecidableEq

/-- `BuildSystemPath` (src/types.rs): a manifest-relative path string tagged
with its notation. -/
structure BuildSystemPath where
  raw : String
  format : PathFormat
deriving DecidableEq

/-- `BuildSystemPath::get_host_path` (src/types.rs, lines 172-183); on a
non-windows host this is the raw string unchanged. -/
def BuildSystemPath.get_host_path (p : BuildSystemPath) : String := p.raw

/-- `BuildSystemPath::is_absolute` (src/types.rs, lines 185-187): unix
`PathBuf::is_absolute`, i.e. a leading `/`. -/
def BuildSystemPath.is_absolute (p : BuildSystemPath) : Bool :=
  startsWithStr "/" p.raw

/-! ## `src/paths.rs`: lexical normalization -/

/-- A unix `std::path::Component` (no `Prefix` components on unix). -/
inductive RComponent
  | rootDir
  | curDir
  | parentDir
  | normal (s : String)
deriving DecidableEq

/-- Rust `Path::components()` for a unix path string: split on `/`, drop empty
and `.` pieces, keep a leading `RootDir` for absolute paths and a leading
`CurDir` for paths written `./…` (or the path `.` itself). -/
def parseComponents (s : String) : List RComponent :=
  let parts := (splitStr '/' s).filter (fun p => !(p == "") && !(p == "."))
  let comps := parts.map (fun p => if p = ".." then RComponent.parentDir else RComponent.normal p)
  if startsWithStr "/" s then RComponent.rootDir :: comps
  else if s = "." ∨ startsWithStr "./" s then RComponent.curDir :: comps
  else comps

/-- The component loop of `normalize_path` (src/paths.rs, lines 23-40).  The
state is the `ret : PathBuf` under construction, as (absolute?, components):
`RootDir` is pushed (making `ret` absolute), `CurDir` is skipped, `ParentDir`
fails when `ret.parent()` is `None` (no components left) and otherwise pops,
and a normal component is pushed. -/
def normalizeLoop : Bool → List String → List RComponent → Option (Bool × List String)
  | abs, acc, [] => some (abs, acc)
  | _, _, RComponent.rootDir :: rest => normalizeLoop true [] rest
  | abs, acc, RComponent.curDir :: rest => normalizeLoop abs acc rest
  | abs, acc, RComponent.parentDir :: rest =>
    match acc with
    | [] => none
    | _ :: _ => normalizeLoop abs acc.dropLast rest
  | abs, acc, RComponent.normal n :: rest => normalizeLoop abs (acc ++ [n]) rest

/-- Render the normalized `PathBuf` back to a string. -/
def renderPath : Bool × List String → String
  | (abs, comps) => (if abs then "/" else "") ++ joinComponents comps

/-- `normalize_path` (src/paths.rs, lines 14-42): lexically collapse `.` and
resolve `..` without touching the filesystem; `none` when a `..` cannot pop. -/
def normalize_path (s : String) : Option String :=
  (normalizeLoop false [] (parseComponents s)).map renderPath

/-! ## `src/types.rs`: `Repository::resolve_rel_path` -/

/-- Unix `PathBuf::join`: an absolute right operand replaces the base. -/
def pathJoin (base rel : String) : String :=
  if startsWithStr "/" rel then rel
  else if base = "" then rel
  else base ++ "/" ++ rel

/-- `Repository::resolve_rel_path` (src/types.rs, lines 238-259): join the
declaring package's path with the manifest path, normalize, and build a
`RawTarget` (re-validating via `TargetName::new`). -/
def resolve_rel_path (rel_path : BuildSystemPath) (rel_to : RawTarget) :
    Except String RawTarget :=
  let base := rel_to.name.val
  let path := pathJoin base rel_path.get_host_path
  match normalize_path path with
  | none => .error ("the path is mostly outside your workspace, path=" ++ path)
  | some target_name =>
    match TargetName.new target_name with
    | .error e => .error e
    | .ok n => .ok ⟨n⟩

/-- Discriminator for `Except` results (Rust `Result::is_ok`). -/
def isOkE {α : Type} : Except String α → Bool
  | .ok _ => true
  | .error _ => false

/-! ## `src/graph.rs`: `TargetGraph` -/

/-- `TargetGraph` (src/graph.rs, lines 20-33).  The petgraph arena assigns
node indices in insertion order, so the node arena is the list of targets
(index = position) and the two lookup hashmaps are recovered by position
lookup; edges are index pairs in insertion order. -/
structure TargetGraph where
  nodes : List Target
  edges : List (Nat × Nat)
deriving DecidableEq

/-- `TargetGraph::new` (src/graph.rs, lines 36-42). -/
def TargetGraph.new : TargetGraph := ⟨[], []⟩

/-- Index lookup of a target (the `target_by_index` hashmap). -/
def idxOf : List Target → Target → Option Nat
  | [], _ => none
  | x :: xs, t => if x = t then some 0 else (idxOf xs t).map (· + 1)

/-- `TargetGraph::contains_node` (src/graph.rs, lines 44-53). -/
def TargetGraph.contains_node (g : TargetGraph) (t : Target) : Bool :=
  g.nodes.contains t

/-- `TargetGraph::add_node` (src/graph.rs, lines 55-63): a no-op when the
target identity is already a key of `target_by_index`. -/
def TargetGraph.add_node (g : TargetGraph) (t : Target) : TargetGraph :=
  if g.nodes.contains t then g
  else { g with nodes := g.nodes ++ [t] }

/-- `TargetGraph::add_edge` (src/graph.rs, lines 65-73): fails when either
endpoint is absent; a no-op when the edge already exists. -/
def TargetGraph.add_edge (g : TargetGraph) (src dest : Target) : Except String TargetGraph :=
  match idxOf g.nodes src with
  | none => .error "error while adding edge: dest index not found"
  | some s =>
    match idxOf g.nodes dest with
    | none => .error "error while adding edge: dest index not found"
    | some d =>
      if (s, d) ∈ g.edges then .ok g
      else .ok { g with edges := g.edges ++ [(s, d)] }

/-- Successor indices of a node: the targets of its outgoing edges (petgraph
`neighbors`, outgoing direction). -/
def succs (edges : List (Nat × Nat)) (n : Nat) : List Nat :=
  (edges.filter (fun e => e.1 == n)).map (fun e => e.2)

/-- The loop of petgraph `Dfs::next` iterated to exhaustion, as called by
`TargetGraph::rdeps` (src/graph.rs, lines 92-100): pop the stack, skip
already-discovered nodes, otherwise mark the node discovered, push its
successors and emit it.  `fuel` bounds the number of pops; each step shrinks
`stack.length` plus the number of edges from undiscovered sources, so any
fuel at least that quantity yields the full traversal. -/
def dfsLoop (edges : List (Nat × Nat)) : Nat → List Nat → List Nat → List Nat
  | _, [], _ => []
  | 0, _ :: _, _ => []
  | fuel + 1, n :: stack, visited =>
    if n ∈ visited then dfsLoop edges fuel stack visited
    else n :: dfsLoop edges fuel (succs edges n ++ stack) (n :: visited)

/-- The index-collection loop of `rdeps` (src/graph.rs, lines 88-91):
`get_cloned_node_index` for each start, failing on the first absent one. -/
def getIndices (g : TargetGraph) : List Target → Except String (List Nat)
  | [] => .ok []
  | t :: ts =>
    match idxOf g.nodes t with
    | none => .error "error while adding edge: dest index not found"
    | some i =>
      match getIndices g ts with
      | .error e => .error e
      | .ok is => .ok (i :: is)

/-- The result-collection loop of `rdeps` (src/graph.rs, lines 94-100): map
each discovered index back through `index_by_target`; a miss is the
`expect` panic, modelled as an error result. -/
def idxsToTargets (g : TargetGraph) : List Nat → Except String (List Target)
  | [] => .ok []
  | i :: is =>
    match g.nodes.get? i with
    | none => .error "corrupted graph state"
    | some t =>
      match idxsToTargets g is with
      | .error e => .error e
      | .ok ts => .ok (t :: ts)

/-- `TargetGraph::rdeps` (src/graph.rs, lines 87-103): look up all start
indices, run the multi-source DFS seeded with them (petgraph
`Dfs::from_parts` uses the index vector as the initial stack and pops from
its back, hence the `reverse`), and map the visit order back to targets. -/
def TargetGraph.rdeps (g : TargetGraph) (targets : List Target) : Except String (List Target) :=
  match getIndices g targets with
  | .error e => .error e
  | .ok indices =>
    let stack := indices.reverse
    idxsToTargets g (dfsLoop g.edges (stack.length + g.edges.length) stack [])

/-- Representation invariant of the Rust `TargetGraph`: node identities are
distinct (`add_node` skips duplicates) and every edge endpoint is a valid
node index (`add_edge` looks both up before inserting). -/
def TargetGraph.WF (g : TargetGraph) : Prop :=
  g.nodes.Nodup ∧ ∀ e ∈ g.edges, e.1 < g.nodes.length ∧ e.2 < g.nodes.length

/-- Reachability along edges between node indices. -/
inductive ReachIdx (edges : List (Nat × Nat)) : Nat → Nat → Prop
  | refl (i : Nat) : ReachIdx edges i i
  | tail {i j k : Nat} : ReachIdx edges i j → (j, k) ∈ edges → ReachIdx edges i k

/-- Reachability between targets of a graph, via their node indices. -/
def TargetGraph.Reaches (g : TargetGraph) (s t : Target) : Prop :=
  ∃ i j, idxOf g.nodes s = some i ∧ idxOf g.nodes t = some j ∧ ReachIdx g.edges i j

/-! ## `src/infer/core.rs`: the inference plugin contract -/

/-- `FailedParent` (src/infer/core.rs, lines 8-12). -/
structure FailedParent where
  name : String
  reason : String
deriving DecidableEq

/-- `Single` (src/infer/core.rs, lines 14-19). -/
structure Single where
  target : Target
  parents : List RawTarget
  failed_parents : List FailedParent
deriving DecidableEq

/-- `InferredTarget` (src/infer/core.rs, lines 21-26). -/
inductive InferredTarget
  | One (s : Single)
  | Many (m : List Single)
  | Nothing
deriving DecidableEq

/-- `Next` (src/infer/core.rs, lines 28-32). -/
inductive Next
  | Continue
  | Break
deriving DecidableEq

/-- `InferResult` (src/infer/core.rs, lines 34-38). -/
structure InferResult where
  inferred_target : InferredTarget
  what_next : Next
deriving DecidableEq

/-- An inference plugin: the `Infer::from_raw_target` method
(src/infer/core.rs, line 56) of one registered inferrer. -/
def InferFn : Type := RawTarget → Except String InferResult

/-! ## `src/infer.rs`: the inference runner -/

/-- `InferRunner::raw_run_inferrers` (src/infer.rs, lines 121-148): consult
plugins in order, drop `Nothing` results, keep the rest, and stop early at
the first `Break` continuation signal. -/
def raw_run_inferrers : List InferFn → RawTarget → Except String (List InferredTarget)
  | [], _ => .ok []
  | inf :: rest, raw =>
    match inf raw with
    | .error e => .error ("failed in building graph of targets: " ++ e)
    | .ok r =>
      let acc : List InferredTarget :=
        match r.inferred_target with
        | .Nothing => []
        | t => [t]
      match r.what_next with
      | .Break => .ok acc
      | .Continue =>
        match raw_run_inferrers rest raw with
        | .error e => .error e
        | .ok ts => .ok (acc ++ ts)

/-- `InferRunner::validate_inferred_targets` (src/infer.rs, lines 150-171). -/
def validate_inferred_targets (raw : RawTarget) (inferred_targets : List InferredTarget) :
    Except String Unit :=
  if inferred_targets.length > 1 then
    .error ("err: found a target where multiple build systems were inferred. this is not allowed for automatic inference. package_path=" ++ raw.name.val)
  else if inferred_targets.length = 0 then
    .error ("err: could not infer any target for package=" ++ raw.name.val ++ ", add it manually in nabs.json")
  else .ok ()

/-- `InferRunner::run_inf` (src/infer.rs, lines 96-119): collect the
non-`Nothing` results, validate that exactly one plugin matched, and unpack
it ( `One` gives a singleton list, `Many` its list).  The `Nothing` arm is
the source's `panic!`, unreachable after validation. -/
def run_inf (infs : List InferFn) (raw : RawTarget) : Except String (List Single) :=
  match raw_run_inferrers infs raw with
  | .error e => .error e
  | .ok inferred_targets =>
    match validate_inferred_targets raw inferred_targets with
    | .error e => .error e
    | .ok _ =>
      match inferred_targets with
      | [] => .error "inferred_targets is a list with only Nothing inside, this is impossible"
      | t :: _ =>
        match t with
        | .Nothing => .error "inferred_targets is a list with only Nothing inside, this is impossible"
        | .One s => .ok [s]
        | .Many m => .ok m

/-- The warning printed by `build_graph_rec` (src/infer.rs, lines 77-81) when
building the graph for a parent fails. -/
def warnMsg (p : RawTarget) (e : String) : String :=
  "warning: failed in creating graph for package=" ++ p.name.val ++
    ". nabs will skip adding this target in analysis. reason: " ++ e

/-- The edge-insertion loop of `build_graph_rec` (src/infer.rs, lines 83-89):
one edge from every target the parent call produced to the current target;
an `add_edge` failure is the source's `expect` panic, modelled as `none`. -/
def addEdges (g : TargetGraph) (pts : List Target) (our : Target) : Option TargetGraph :=
  match pts with
  | [] => some g
  | pt :: rest =>
    match g.add_edge pt our with
    | .error _ => none
    | .ok g' => addEdges g' rest our

/-- The parent loop of `build_graph_rec` (src/infer.rs, lines 70-91),
parameterized by the recursive call `f`: a failed recursive call is logged
as a warning and skipped (no edge); a successful one contributes one edge
per produced parent target. -/
def processParentsF
    (f : TargetGraph → List String → RawTarget →
      Option (Except String (TargetGraph × List String × List Target)))
    (our : Target) :
    TargetGraph → List String → List RawTarget → Option (TargetGraph × List String)
  | g, log, [] => some (g, log)
  | g, log, p :: rest =>
    match f g log p with
    | none => none
    | some (.error e) => processParentsF f our g (log ++ [warnMsg p e]) rest
    | some (.ok (g', log', pts)) =>
      match addEdges g' pts our with
      | none => none
      | some g'' => processParentsF f our g'' log' rest

/-- The per-produced-target loop of `build_graph_rec` (src/infer.rs, lines
64-92), parameterized by the recursive call `f`: skip a target already in
the graph, otherwise insert it and process its parents. -/
def processSinglesF
    (f : TargetGraph → List String → RawTarget →
      Option (Except String (TargetGraph × List String × List Target))) :
    TargetGraph → List String → List Single → Option (TargetGraph × List String)
  | g, log, [] => some (g, log)
  | g, log, s :: rest =>
    if g.contains_node s.target then processSinglesF f g log rest
    else
      match processParentsF f s.target (g.add_node s.target) log s.parents with
      | none => none
      | some (g', log') => processSinglesF f g' log' rest

/-- `InferRunner::build_graph_rec` (src/infer.rs, lines 61-94).  `fuel`
bounds the recursion depth; `none` models a computation that does not return
(unbounded recursion, or the `expect` panic on edge insertion).  The warning
log models the `println!` side channel.  An error is returned exactly when
`run_inf` fails for `raw` itself, before the graph is touched. -/
def build_graph_rec (infs : List InferFn) : Nat → TargetGraph → List String → RawTarget →
    Option (Except String (TargetGraph × List String × List Target))
  | 0, _, _, _ => none
  | fuel + 1, g, log, raw =>
    match run_inf infs raw with
    | .error e => some (.error e)
    | .ok singles =>
      match processSinglesF (build_graph_rec infs fuel) g log singles with
      | none => none
      | some (g', log') => some (.ok (g', log', singles.map (fun s => s.target)))

/-- The seed loop of `InferRunner::build_graph` (src/infer.rs, lines 42-52):
a seed's failure propagates (`?`), its produced targets accumulate. -/
def buildGraphSeeds (infs : List InferFn) (fuel : Nat) :
    TargetGraph → List String → List Target → List RawTarget →
    Option (Except String (TargetGraph × List String × List Target))
  | g, log, acc, [] => some (.ok (g, log, acc))
  | g, log, acc, s :: rest =>
    match build_graph_rec infs fuel g log s with
    | none => none
    | some (.error e) => some (.error e)
    | some (.ok (g', log', ts)) => buildGraphSeeds infs fuel g' log' (acc ++ ts) rest

/-- `InferRunner::build_graph` (src/infer.rs, lines 42-52). -/
def build_graph (infs : List InferFn) (fuel : Nat) (start : List RawTarget) :
    Option (Except String (TargetGraph × List String × List Target)) :=
  buildGraphSeeds infs fuel TargetGraph.new [] [] start

/-! ## `src/infer/icargo.rs`: the Cargo dependency loop -/

/-- `Dependency` (src/infer/icargo.rs, lines 17-23): a dependency table entry
is either a plain version string or an object with an optional `path`. -/
inductive Dependency
  | Simple (s : String)
  | Object (path : Option String)
deriving DecidableEq

/-- `deps_to_raw_targets` (src/infer/icargo.rs, lines 50-81): for each
dependency that declares a `path`, an absolute path becomes a
`FailedParent`, otherwise the path is resolved against the declaring
package, a resolution failure again becoming a `FailedParent`.  The Rust
function returns `Result` but never an `Err`. -/
def deps_to_raw_targets (our_target : RawTarget) :
    List (String × Dependency) → List RawTarget × List FailedParent
  | [] => ([], [])
  | (_, .Simple _) :: rest => deps_to_raw_targets our_target rest
  | (_, .Object none) :: rest => deps_to_raw_targets our_target rest
  | (_, .Object (some p)) :: rest =>
    let tailRes := deps_to_raw_targets our_target rest
    let path : BuildSystemPath := ⟨p, .Posix⟩
    if path.is_absolute then
      (tailRes.1, ⟨p, "absolute paths are not allowed"⟩ :: tailRes.2)
    else
      match resolve_rel_path path our_target with
      | .ok parent_raw_target => (parent_raw_target :: tailRes.1, tailRes.2)
      | .error e => (tailRes.1, ⟨p, e⟩ :: tailRes.2)

/-! ## `src/infer/py_requirements.rs` -/

/-- The per-line extraction of `get_file_names` (src/infer/py_requirements.rs,
lines 74-90): a trimmed line starting with `./` or `../` is a path, and a
line containing `@` followed by `file://` contributes what follows the first
`file://` occurring in the suffix that starts at the first `@`. -/
def linePaths (rawLine : String) : List String :=
  let l : List Char := trimChars rawLine.data
  let fromDots :=
    if isPrefixCharsB "./".data l || isPrefixCharsB "../".data l then [String.mk l] else []
  let fromAt :=
    match fromFirstOcc "@".data l with
    | none => []
    | some suffix =>
      match afterFirstOcc "file://".data suffix with
      | none => []
      | some filePath => [String.mk filePath]
  fromDots ++ fromAt

/-- `get_file_names` (src/infer/py_requirements.rs, lines 71-92). -/
def get_file_names (content : String) : List String :=
  ((splitChars '\n' content.data).map (fun lc => linePaths (String.mk lc))).flatten

/-- The path-resolution loop of `PyRequirementsInfer::from_raw_target`
(src/infer/py_requirements.rs, lines 39-57): absolute declared paths and
failed resolutions become `FailedParent`s, successes become parents. -/
def pyResolveAll (t : RawTarget) : List String → List RawTarget × List FailedParent
  | [] => ([], [])
  | p :: rest =>
    let tailRes := pyResolveAll t rest
    let bsp : BuildSystemPath := ⟨p, .Posix⟩
    if bsp.is_absolute then
      (tailRes.1, ⟨p, "absolute paths are not allowed"⟩ :: tailRes.2)
    else
      match resolve_rel_path bsp t with
      | .ok raw_target => (raw_target :: tailRes.1, tailRes.2)
      | .error e => (tailRes.1, ⟨p, e⟩ :: tailRes.2)

/-- `PyRequirementsInfer::from_raw_target` (src/infer/py_requirements.rs,
lines 23-68), with the repository read abstracted as the optional content of
the requirements file: no file means `Nothing`/`Continue`, otherwise one
target of flavor `python_requirements` with the resolved parents. -/
def py_from_raw_target (content : Option String) (t : RawTarget) : Except String InferResult :=
  match content with
  | none => .ok ⟨.Nothing, .Continue⟩
  | some c =>
    let res := pyResolveAll t (get_file_names c)
    match Target.from_raw_target t "python_requirements" with
    | .error e => .error e
    | .ok target => .ok ⟨.One ⟨target, res.1, res.2⟩, .Continue⟩

/-! ## Helper lemmas -/

/-- An `Except` is `ok` for some value exactly when `isOkE` says so. -/
theorem isOkE_iff {α : Type} (x : Except String α) : isOkE x = true ↔ ∃ a, x = .ok a := by
  cases x <;> simp [isOkE]

/-- `TargetName.new` succeeds exactly when `TargetName.validate` does. -/
theorem new_ok_iff_validate (s : String) :
    isOkE (TargetName.new s) = true ↔ TargetName.validate s = .ok () := by
  unfold TargetName.new
  cases h : TargetName.validate s with
  | error e => simp [isOkE]
  | ok u => cases u; simp [isOkE]

/-- The component loop of validation succeeds exactly when no component is
empty, `.` or `..`. -/
theorem validateComponents_ok (name : String) (cs : List String) :
    validateComponents name cs = .ok () ↔ ∀ c ∈ cs, c ≠ "" ∧ c ≠ "." ∧ c ≠ ".." := by
  induction cs with
  | nil => simp [validateComponents]
  | cons c rest ih =>
    simp only [validateComponents]
    by_cases h1 : c = ""
    · subst h1; simp
    · rw [if_neg h1]
      by_cases h2 : c = "." ∨ c = ".."
      · rw [if_pos h2]
        constructor
        · intro h; exact absurd h (by simp)
        · intro h
          have hc := h c (List.mem_cons_self c rest)
          rcases h2 with h2 | h2
          · exact absurd h2 hc.2.1
          · exact absurd h2 hc.2.2
      · rw [if_neg h2]
        rw [ih]
        constructor
        · intro h
          intro c' hc'
          rcases List.mem_cons.mp hc' with rfl | hm
          · exact ⟨h1, fun hd => h2 (Or.inl hd), fun hdd => h2 (Or.inr hdd)⟩
          · exact h c' hm
        · intro h c' hc'
          exact h c' (List.mem_cons_of_mem _ hc')

/-- Validation succeeds exactly under the documented invariants. -/
theorem validate_ok_iff (s : String) :
    TargetName.validate s = .ok () ↔
      (s ≠ "" ∧ startsWithStr "/" s = false ∧
        ∀ c ∈ splitStr '/' s, c ≠ "" ∧ c ≠ "." ∧ c ≠ "..") := by
  unfold TargetName.validate
  by_cases h1 : s = ""
  · subst h1; simp
  · rw [if_neg h1]
    by_cases h2 : startsWithStr "/" s = true
    · rw [if_pos h2]
      constructor
      · intro h; exact absurd h (by simp)
      · intro h; rw [h.2.1] at h2; exact absurd h2 (by simp)
    · have h2' : startsWithStr "/" s = false := by
        cases hc : startsWithStr "/" s
        · rfl
        · exact absurd hc h2
      rw [if_neg h2, validateComponents_ok]
      constructor
      · intro h; exact ⟨h1, h2', h⟩
      · intro h; exact h.2.2

/-! ## Claim C7 -/

/-- C7: `TargetName::new` succeeds for a string exactly when it is non-empty,
has no leading `/`, no empty component and no `.`/`..` component (components
being the `/`-split of the string), rejecting in particular `""`, `"/abs"`,
`"a/../b"`, `"a/./b"` and `"a//b"`, and accepting `"a/b/c"`. -/
theorem C7_target_name_validation :
    (∀ s : String,
      isOkE (TargetName.new s) = true ↔
        (s ≠ "" ∧ startsWithStr "/" s = false ∧
          ∀ c ∈ splitStr '/' s, c ≠ "" ∧ c ≠ "." ∧ c ≠ ".."))
    ∧ isOkE (TargetName.new "") = false
    ∧ isOkE (TargetName.new "/abs") = false
    ∧ isOkE (TargetName.new "a/../b") = false
    ∧ isOkE (TargetName.new "a/./b") = false
    ∧ isOkE (TargetName.new "a//b") = false
    ∧ isOkE (TargetName.new "a/b/c") = true := by
  refine ⟨?_, by decide, by decide, by decide, by decide, by decide, by decide⟩
  intro s
  rw [new_ok_iff_validate, validate_ok_iff]

/-! ## Claim C9 -/

/-- C9: `add_node` and `add_edge` are idempotent — re-adding a node whose
identity is already present, or re-adding an existing `(src, dest)` edge of
present nodes, leaves the graph unchanged (hence node and edge counts are
identical before and after the duplicate call). -/
theorem C9_idempotent_mutation :
    (∀ (g : TargetGraph) (t : Target), (g.add_node t).add_node t = g.add_node t)
    ∧ (∀ (g : TargetGraph) (t : Target), t ∈ g.nodes → g.add_node t = g)
    ∧ (∀ (g g' : TargetGraph) (s d : Target),
        g.add_edge s d = .ok g' → g'.add_edge s d = .ok g') := by
  refine ⟨?_, ?_, ?_⟩
  · intro g t
    unfold TargetGraph.add_node
    by_cases h : t ∈ g.nodes
    · simp [h]
    · have h2 : t ∈ g.nodes ++ [t] := by simp
      simp [h, h2]
  · intro g t h
    unfold TargetGraph.add_node
    simp [h]
  · intro g g' s d h
    unfold TargetGraph.add_edge at h
    cases hs : idxOf g.nodes s with
    | none => simp [hs] at h
    | some si =>
      cases hd : idxOf g.nodes d with
      | none => simp [hs, hd] at h
      | some di =>
        simp only [hs, hd] at h
        by_cases he : (si, di) ∈ g.edges
        · rw [if_pos he] at h
          injection h with h1
          subst h1
          unfold TargetGraph.add_edge
          simp only [hs, hd]
          rw [if_pos he]
        · rw [if_neg he] at h
          injection h with h1
          subst h1
          unfold TargetGraph.add_edge
          have hnodes : (TargetGraph.mk g.nodes (g.edges ++ [(si, di)])).nodes = g.nodes := rfl
          rw [hnodes, hs, hd]
          have he2 : (si, di) ∈ (TargetGraph.mk g.nodes (g.edges ++ [(si, di)])).edges := by
            simp
          simp [he2]

/-- C9 witness: a concrete duplicate `add_node` and `add_edge` call. -/
theorem C9_witness :
    (TargetGraph.mk [⟨⟨"w"⟩, "f"⟩] []).add_node ⟨⟨"w"⟩, "f"⟩ = TargetGraph.mk [⟨⟨"w"⟩, "f"⟩] []
    ∧ (TargetGraph.mk [⟨⟨"w"⟩, "f"⟩, ⟨⟨"v"⟩, "f"⟩] [(0, 1)]).add_edge ⟨⟨"w"⟩, "f"⟩ ⟨⟨"v"⟩, "f"⟩
        = .ok (TargetGraph.mk [⟨⟨"w"⟩, "f"⟩, ⟨⟨"v"⟩, "f"⟩] [(0, 1)]) :=
  ⟨C9_idempotent_mutation.2.1 (TargetGraph.mk [⟨⟨"w"⟩, "f"⟩] []) ⟨⟨"w"⟩, "f"⟩ (by decide),
   C9_idempotent_mutation.2.2 (TargetGraph.mk [⟨⟨"w"⟩, "f"⟩, ⟨⟨"v"⟩, "f"⟩] [(0, 1)])
     (TargetGraph.mk [⟨⟨"w"⟩, "f"⟩, ⟨⟨"v"⟩, "f"⟩] [(0, 1)]) ⟨⟨"w"⟩, "f"⟩ ⟨⟨"v"⟩, "f"⟩ (by decide)⟩

/-! ## Claim C5 -/

/-- C5: `resolve_rel_path` joins the declaring package's canonical path with
the manifest path and lexically normalizes it: `"../x"` against `"pkgs/a/b"`
gives `"pkgs/a/x"`, `"libs/x/../y"` against `"pkgs/a/b"` gives
`"pkgs/a/b/libs/y"`, and whenever normalization of the join fails (the path
escapes the workspace root) an error is returned. -/
theorem C5_resolve_rel_path_spec :
    resolve_rel_path ⟨"../x", .Posix⟩ ⟨⟨"pkgs/a/b"⟩⟩ = .ok ⟨⟨"pkgs/a/x"⟩⟩
    ∧ resolve_rel_path ⟨"libs/x/../y", .Posix⟩ ⟨⟨"pkgs/a/b"⟩⟩ = .ok ⟨⟨"pkgs/a/b/libs/y"⟩⟩
    ∧ (∀ (rel : BuildSystemPath) (rel_to : RawTarget),
        normalize_path (pathJoin rel_to.name.val rel.get_host_path) = none →
        isOkE (resolve_rel_path rel rel_to) = false) := by
  refine ⟨by decide, by decide, ?_⟩
  intro rel rel_to h
  simp only [resolve_rel_path]
  rw [h]
  rfl

/-- C5 witness: a manifest path escaping above the workspace root is an
error. -/
theorem C5_witness :
    isOkE (resolve_rel_path ⟨"../../../../x", .Posix⟩ ⟨⟨"pkgs/a/b"⟩⟩) = false :=
  C5_resolve_rel_path_spec.2.2 ⟨"../../../../x", .Posix⟩ ⟨⟨"pkgs/a/b"⟩⟩ (by decide)

/-! ## Claim C6 -/

/-- Number of `..` components in a component list. -/
def countPar (cs : List RComponent) : Nat :=
  (cs.filter (fun c => c == RComponent.parentDir)).length

/-- Number of named (normal) components in a component list. -/
def countNorm (cs : List RComponent) : Nat :=
  (cs.filter (fun c =>
    match c with
    | RComponent.normal _ => true
    | _ => false)).length

theorem countPar_cons_par (l : List RComponent) :
    countPar (RComponent.parentDir :: l) = countPar l + 1 := by
  simp [countPar]

theorem countPar_cons_cur (l : List RComponent) :
    countPar (RComponent.curDir :: l) = countPar l := by
  simp [countPar]

theorem countPar_cons_normal (s : String) (l : List RComponent) :
    countPar (RComponent.normal s :: l) = countPar l := by
  simp [countPar]

theorem countNorm_cons_par (l : List RComponent) :
    countNorm (RComponent.parentDir :: l) = countNorm l := by
  simp [countNorm]

theorem countNorm_cons_cur (l : List RComponent) :
    countNorm (RComponent.curDir :: l) = countNorm l := by
  simp [countNorm]

theorem countNorm_cons_normal (s : String) (l : List RComponent) :
    countNorm (RComponent.normal s :: l) = countNorm l + 1 := by
  simp [countNorm]

/-- The normalization loop fails exactly when some prefix of the component
list contains more `..` components than it can pop: named components plus
the components already accumulated. -/
theorem normalizeLoop_none_iff (cs : List RComponent) :
    ∀ (abs : Bool) (acc : List String), RComponent.rootDir ∉ cs →
      (normalizeLoop abs acc cs = none ↔
        ∃ k, countNorm (cs.take k) + acc.length < countPar (cs.take k)) := by
  induction cs with
  | nil =>
    intro abs acc _
    constructor
    · intro h; exact absurd h (by simp [normalizeLoop])
    · rintro ⟨k, hk⟩
      simp [countNorm, countPar] at hk
  | cons c rest ih =>
    intro abs acc h
    have hrest : RComponent.rootDir ∉ rest := fun hm => h (List.mem_cons_of_mem _ hm)
    cases c with
    | rootDir => exact absurd (List.mem_cons_self _ _) h
    | curDir =>
      rw [show normalizeLoop abs acc (RComponent.curDir :: rest)
            = normalizeLoop abs acc rest from rfl]
      rw [ih abs acc hrest]
      constructor
      · rintro ⟨k, hk⟩
        refine ⟨k + 1, ?_⟩
        rw [List.take_succ_cons, countNorm_cons_cur, countPar_cons_cur]
        exact hk
      · rintro ⟨k, hk⟩
        cases k with
        | zero => simp [countNorm, countPar] at hk
        | succ k' =>
          refine ⟨k', ?_⟩
          rw [List.take_succ_cons, countNorm_cons_cur, countPar_cons_cur] at hk
          exact hk
    | parentDir =>
      cases acc with
      | nil =>
        constructor
        · intro _
          refine ⟨1, ?_⟩
          simp [countNorm, countPar]
        · intro _
          rfl
      | cons a as =>
        rw [show normalizeLoop abs (a :: as) (RComponent.parentDir :: rest)
              = normalizeLoop abs (a :: as).dropLast rest from rfl]
        rw [ih abs (a :: as).dropLast hrest]
        have hlen : (a :: as).dropLast.length = as.length := by
          simp
        rw [hlen]
        constructor
        · rintro ⟨k, hk⟩
          refine ⟨k + 1, ?_⟩
          rw [List.take_succ_cons, countNorm_cons_par, countPar_cons_par]
          simp only [List.length_cons]
          omega
        · rintro ⟨k, hk⟩
          cases k with
          | zero => simp [countNorm, countPar] at hk
          | succ k' =>
            refine ⟨k', ?_⟩
            rw [List.take_succ_cons, countNorm_cons_par, countPar_cons_par] at hk
            simp only [List.length_cons] at hk
            omega
    | normal n =>
      rw [show normalizeLoop abs acc (RComponent.normal n :: rest)
            = normalizeLoop abs (acc ++ [n]) rest from rfl]
      rw [ih abs (acc ++ [n]) hrest]
      have hlen : (acc ++ [n]).length = acc.length + 1 := by simp
      rw [hlen]
      constructor
      · rintro ⟨k, hk⟩
        refine ⟨k + 1, ?_⟩
        rw [List.take_succ_cons, countNorm_cons_normal, countPar_cons_normal]
        omega
      · rintro ⟨k, hk⟩
        cases k with
        | zero => simp [countNorm, countPar] at hk
        | succ k' =>
          refine ⟨k', ?_⟩
          rw [List.take_succ_cons, countNorm_cons_normal, countPar_cons_normal] at hk
          omega

/-- A path that does not start with `/` parses without a `RootDir`. -/
theorem rootDir_not_mem_parse (s : String) (h : startsWithStr "/" s = false) :
    RComponent.rootDir ∉ parseComponents s := by
  intro hmem
  unfold parseComponents at hmem
  rw [h] at hmem
  simp only [Bool.false_eq_true, if_false] at hmem
  have hcomps : RComponent.rootDir ∉
      ((splitStr '/' s).filter (fun p => !(p == "") && !(p == "."))).map
        (fun p => if p = ".." then RComponent.parentDir else RComponent.normal p) := by
    intro hm
    obtain ⟨p, _, hp⟩ := List.mem_map.mp hm
    by_cases hdd : p = ".."
    · rw [if_pos hdd] at hp; exact RComponent.noConfusion hp
    · rw [if_neg hdd] at hp; exact RComponent.noConfusion hp
  by_cases hcur : s = "." ∨ startsWithStr "./" s
  · rw [if_pos hcur] at hmem
    rcases List.mem_cons.mp hmem with heq | hm
    · exact RComponent.noConfusion heq
    · exact hcomps hm
  · rw [if_neg hcur] at hmem
    exact hcomps hmem

/-- C6: `normalize_path` lexically collapses `.` and resolves `..` —
`"a/b/../c"` normalizes to `"a/c"` — and for a relative input it fails
exactly when some prefix of the parsed components has more `..` components
than named ones, i.e. when a `..` pops above the path's own root; in
particular `"a/../../b"` fails. -/
theorem C6_normalize_path_spec :
    normalize_path "a/b/../c" = some "a/c"
    ∧ normalize_path "a/../../b" = none
    ∧ (∀ s : String, startsWithStr "/" s = false →
        (normalize_path s = none ↔
          ∃ k, countNorm ((parseComponents s).take k) < countPar ((parseComponents s).take k))) := by
  refine ⟨by decide, by decide, ?_⟩
  intro s h
  unfold normalize_path
  rw [Option.map_eq_none']
  have := normalizeLoop_none_iff (parseComponents s) false [] (rootDir_not_mem_parse s h)
  simpa using this

/-- C6 witness: the escape characterization applied to `"a/../../b"`. -/
theorem C6_witness :
    normalize_path "a/../../b" = none ↔
      ∃ k, countNorm ((parseComponents "a/../../b").take k)
        < countPar ((parseComponents "a/../../b").take k) :=
  C6_normalize_path_spec.2.2 "a/../../b" (by decide)

/-! ## Claim C10 -/

/-- A successfully resolved raw target carries a name that passed
`TargetName::validate` (the re-validation inside `resolve_rel_path`). -/
theorem resolve_ok_validate (rel : BuildSystemPath) (rel_to : RawTarget) (raw : RawTarget)
    (h : resolve_rel_path rel rel_to = .ok raw) :
    TargetName.validate raw.name.val = .ok () := by
  simp only [resolve_rel_path] at h
  split at h
  · exact absurd h (by simp)
  · rename_i tn hn
    split at h
    · exact absurd h (by simp)
    · rename_i n ht
      injection h with h1
      subst h1
      unfold TargetName.new at ht
      split at ht
      · exact absurd ht (by simp)
      · rename_i u hv
        injection ht with ht1
        subst ht1
        cases u
        exact hv

/-- A successful `resolve_rel_path` returns exactly the normalized join as
the new raw target's name. -/
theorem resolve_ok_name (rel : BuildSystemPath) (rel_to : RawTarget) (raw : RawTarget)
    (h : resolve_rel_path rel rel_to = .ok raw) :
    normalize_path (pathJoin rel_to.name.val rel.get_host_path) = some raw.name.val := by
  simp only [resolve_rel_path] at h
  split at h
  · exact absurd h (by simp)
  · rename_i tn hn
    split at h
    · exact absurd h (by simp)
    · rename_i n ht
      injection h with h1
      subst h1
      unfold TargetName.new at ht
      split at ht
      · exact absurd ht (by simp)
      · rename_i u hv
        injection ht with ht1
        subst ht1
        exact hn

/-- The `..`-to-component mapping never produces a `RootDir`. -/
theorem rootDir_not_mem_mapped (parts : List String) :
    RComponent.rootDir ∉ parts.map
      (fun p => if p = ".." then RComponent.parentDir else RComponent.normal p) := by
  intro hm
  obtain ⟨p, _, hp⟩ := List.mem_map.mp hm
  by_cases hdd : p = ".."
  · rw [if_pos hdd] at hp; exact RComponent.noConfusion hp
  · rw [if_neg hdd] at hp; exact RComponent.noConfusion hp

/-- The normalization loop never changes the absolute flag when no `RootDir`
component is processed. -/
theorem normalizeLoop_abs_pres (cs : List RComponent) :
    ∀ (abs : Bool) (acc : List String) (b : Bool) (l : List String),
      RComponent.rootDir ∉ cs → normalizeLoop abs acc cs = some (b, l) → b = abs := by
  induction cs with
  | nil =>
    intro abs acc b l _ h
    simp [normalizeLoop] at h
    exact h.1.symm
  | cons c rest ih =>
    intro abs acc b l h hl
    have hrest : RComponent.rootDir ∉ rest := fun hm => h (List.mem_cons_of_mem _ hm)
    cases c with
    | rootDir => exact absurd (List.mem_cons_self _ _) h
    | curDir => exact ih abs acc b l hrest hl
    | parentDir =>
      cases acc with
      | nil => exact absurd hl (by simp [normalizeLoop])
      | cons a as => exact ih abs (a :: as).dropLast b l hrest hl
    | normal n => exact ih abs (acc ++ [n]) b l hrest hl

/-- A string of the form `"/" ++ x` starts with `/`. -/
theorem startsWith_slash_append (x : String) : startsWithStr "/" ("/" ++ x) = true := by
  unfold startsWithStr
  rw [String.data_append]
  simp [isPrefixCharsB]

/-- Normalizing an absolute path yields an absolute path. -/
theorem normalize_abs (p : String) (hp : startsWithStr "/" p = true) (r : String)
    (h : normalize_path p = some r) : startsWithStr "/" r = true := by
  unfold normalize_path at h
  unfold parseComponents at h
  rw [hp] at h
  simp only [if_true] at h
  rw [show ∀ comps, normalizeLoop false [] (RComponent.rootDir :: comps)
        = normalizeLoop true [] comps from fun _ => rfl] at h
  cases hl : normalizeLoop true []
      (((splitStr '/' p).filter (fun q => !(q == "") && !(q == "."))).map
        (fun q => if q = ".." then RComponent.parentDir else RComponent.normal q)) with
  | none => rw [hl] at h; exact absurd h (by simp)
  | some bl =>
    rw [hl] at h
    obtain ⟨b, l⟩ := bl
    have hb : b = true := normalizeLoop_abs_pres _ true [] b l (rootDir_not_mem_mapped _) hl
    subst hb
    simp only [Option.map_some'] at h
    injection h with h1
    subst h1
    have hr : renderPath (true, l) = "/" ++ joinComponents l := by simp [renderPath]
    rw [hr]
    exact startsWith_slash_append _

/-- C10: every raw target produced by `resolve_rel_path` satisfies all the
canonical-name invariants (non-empty, no leading `/`, no empty and no
`.`/`..` component), and a manifest path that is absolute, or whose join
normalizes to the empty workspace-root path, makes `resolve_rel_path`
return an error. -/
theorem C10_resolve_produces_valid_names :
    (∀ (rel : BuildSystemPath) (rel_to : RawTarget) (raw : RawTarget),
      resolve_rel_path rel rel_to = .ok raw →
        raw.name.val ≠ "" ∧ startsWithStr "/" raw.name.val = false ∧
        ∀ c ∈ splitStr '/' raw.name.val, c ≠ "" ∧ c ≠ "." ∧ c ≠ "..")
    ∧ (∀ (rel : BuildSystemPath) (rel_to : RawTarget),
        rel.is_absolute = true → isOkE (resolve_rel_path rel rel_to) = false)
    ∧ (∀ (rel : BuildSystemPath) (rel_to : RawTarget),
        normalize_path (pathJoin rel_to.name.val rel.get_host_path) = some "" →
        isOkE (resolve_rel_path rel rel_to) = false) := by
  refine ⟨?_, ?_, ?_⟩
  · intro rel rel_to raw h
    exact (validate_ok_iff _).mp (resolve_ok_validate rel rel_to raw h)
  · intro rel rel_to habs
    cases hok : isOkE (resolve_rel_path rel rel_to) with
    | false => rfl
    | true =>
      obtain ⟨raw, hraw⟩ := (isOkE_iff _).mp hok
      have hjoin : pathJoin rel_to.name.val rel.get_host_path = rel.raw := by
        unfold pathJoin BuildSystemPath.get_host_path
        rw [if_pos ?_]
        exact habs
      have hname := resolve_ok_name rel rel_to raw hraw
      rw [hjoin] at hname
      have habs2 : startsWithStr "/" raw.name.val = true :=
        normalize_abs rel.raw habs raw.name.val hname
      have hvalid := (validate_ok_iff _).mp (resolve_ok_validate rel rel_to raw hraw)
      rw [hvalid.2.1] at habs2
      exact absurd habs2 (by simp)
  · intro rel rel_to hroot
    cases hok : isOkE (resolve_rel_path rel rel_to) with
    | false => rfl
    | true =>
      obtain ⟨raw, hraw⟩ := (isOkE_iff _).mp hok
      have hname := resolve_ok_name rel rel_to raw hraw
      rw [hroot] at hname
      injection hname with h1
      have hvalid := (validate_ok_iff _).mp (resolve_ok_validate rel rel_to raw hraw)
      exact (hvalid.1 h1.symm).elim

/-- C10 witness: a successful resolution has a valid name; an absolute
manifest path resolves to an error. -/
theorem C10_witness :
    ((⟨⟨"pkgs/a/x"⟩⟩ : RawTarget).name.val ≠ "" ∧
      startsWithStr "/" (⟨⟨"pkgs/a/x"⟩⟩ : RawTarget).name.val = false ∧
      ∀ c ∈ splitStr '/' (⟨⟨"pkgs/a/x"⟩⟩ : RawTarget).name.val, c ≠ "" ∧ c ≠ "." ∧ c ≠ "..")
    ∧ isOkE (resolve_rel_path ⟨"/abs/x", .Posix⟩ ⟨⟨"pkgs/a"⟩⟩) = false :=
  ⟨C10_resolve_produces_valid_names.1 ⟨"../x", .Posix⟩ ⟨⟨"pkgs/a/b"⟩⟩ ⟨⟨"pkgs/a/x"⟩⟩ (by decide),
   C10_resolve_produces_valid_names.2.1 ⟨"/abs/x", .Posix⟩ ⟨⟨"pkgs/a"⟩⟩ (by decide)⟩

/-! ## Claim C2 -/

/-- `raw_run_inferrers` never keeps a `Nothing` result. -/
theorem raw_run_inferrers_no_nothing (infs : List InferFn) (raw : RawTarget) :
    ∀ ts, raw_run_inferrers infs raw = .ok ts → InferredTarget.Nothing ∉ ts := by
  induction infs with
  | nil =>
    intro ts h
    injection h with h1
    subst h1
    simp
  | cons inf rest ih =>
    intro ts h
    simp only [raw_run_inferrers] at h
    cases hr : inf raw with
    | error e => simp [hr] at h
    | ok r =>
      simp only [hr] at h
      cases hw : r.what_next with
      | Break =>
        simp only [hw] at h
        injection h with h1
        subst h1
        cases ht : r.inferred_target <;> simp [ht]
      | Continue =>
        simp only [hw] at h
        cases hrest : raw_run_inferrers rest raw with
        | error e => simp [hrest] at h
        | ok ts' =>
          simp only [hrest] at h
          injection h with h1
          subst h1
          intro hmem
          rcases List.mem_append.mp hmem with hacc | hts'
          · cases ht : r.inferred_target <;> simp [ht] at hacc
          · exact ih ts' hrest hts'

/-- C2: the runner consults plugins in order, stopping after the first
`Break` signal; a `Nothing` result is discarded but its signal honored;
afterwards zero collected results is an absence error, more than one an
ambiguity error, and exactly one collected result (`One` or `Many`) is the
success case. -/
theorem C2_infer_runner_contract :
    (∀ (infs : List InferFn) (raw : RawTarget) (collected : List InferredTarget),
      raw_run_inferrers infs raw = .ok collected →
        InferredTarget.Nothing ∉ collected
        ∧ (collected.length = 0 → ∃ e, run_inf infs raw = .error e)
        ∧ (collected.length > 1 → ∃ e, run_inf infs raw = .error e)
        ∧ (∀ s, collected = [.One s] → run_inf infs raw = .ok [s])
        ∧ (∀ m, collected = [.Many m] → run_inf infs raw = .ok m))
    ∧ (∀ (inf : InferFn) (rest : List InferFn) (raw : RawTarget) (r : InferResult),
        inf raw = .ok r → r.what_next = .Break →
        raw_run_inferrers (inf :: rest) raw = raw_run_inferrers [inf] raw)
    ∧ (∀ (inf : InferFn) (rest : List InferFn) (raw : RawTarget) (r : InferResult),
        inf raw = .ok r → r.inferred_target = .Nothing → r.what_next = .Continue →
        raw_run_inferrers (inf :: rest) raw = raw_run_inferrers rest raw) := by
  refine ⟨?_, ?_, ?_⟩
  · intro infs raw collected hco
    refine ⟨raw_run_inferrers_no_nothing infs raw collected hco, ?_, ?_, ?_, ?_⟩
    · intro hlen
      have hnil : collected = [] := List.length_eq_zero.mp hlen
      subst hnil
      have hrun : run_inf infs raw
          = .error ("err: could not infer any target for package=" ++ raw.name.val ++ ", add it manually in nabs.json") := by
        simp [run_inf, hco, validate_inferred_targets]
      exact ⟨_, hrun⟩
    · intro hlen
      have hv : validate_inferred_targets raw collected
          = .error ("err: found a target where multiple build systems were inferred. this is not allowed for automatic inference. package_path=" ++ raw.name.val) := by
        unfold validate_inferred_targets
        rw [if_pos hlen]
      have hrun : run_inf infs raw
          = .error ("err: found a target where multiple build systems were inferred. this is not allowed for automatic inference. package_path=" ++ raw.name.val) := by
        simp [run_inf, hco, hv]
      exact ⟨_, hrun⟩
    · intro s hs
      subst hs
      simp [run_inf, hco, validate_inferred_targets]
    · intro m hm
      subst hm
      simp [run_inf, hco, validate_inferred_targets]
  · intro inf rest raw r h1 h2
    simp only [raw_run_inferrers, h1, h2]
  · intro inf rest raw r h1 h2 h3
    cases hrest : raw_run_inferrers rest raw <;>
      simp [raw_run_inferrers, h1, h2, h3, hrest]

/-- A plugin that always claims one target. -/
def wOne : InferFn := fun _ => .ok ⟨.One ⟨⟨⟨"w"⟩, "f"⟩, [], []⟩, .Continue⟩

/-- A plugin that claims nothing and lets the runner continue. -/
def wNothing : InferFn := fun _ => .ok ⟨.Nothing, .Continue⟩

/-- A plugin that claims nothing but stops the runner. -/
def wBreak : InferFn := fun _ => .ok ⟨.Nothing, .Break⟩

/-- C2 witness: one matching plugin succeeds; a `Break` plugin hides the
plugins after it; a `Nothing`/`Continue` plugin is transparent. -/
theorem C2_witness :
    run_inf [wOne] ⟨⟨"p"⟩⟩ = .ok [⟨⟨⟨"w"⟩, "f"⟩, [], []⟩]
    ∧ raw_run_inferrers [wBreak, wOne] ⟨⟨"p"⟩⟩ = raw_run_inferrers [wBreak] ⟨⟨"p"⟩⟩
    ∧ raw_run_inferrers [wNothing, wOne] ⟨⟨"p"⟩⟩ = raw_run_inferrers [wOne] ⟨⟨"p"⟩⟩ :=
  ⟨(C2_infer_runner_contract.1 [wOne] ⟨⟨"p"⟩⟩ [.One ⟨⟨⟨"w"⟩, "f"⟩, [], []⟩]
      (by decide)).2.2.2.1 ⟨⟨⟨"w"⟩, "f"⟩, [], []⟩ rfl,
   C2_infer_runner_contract.2.1 wBreak [wOne] ⟨⟨"p"⟩⟩ ⟨.Nothing, .Break⟩ (by decide) rfl,
   C2_infer_runner_contract.2.2 wNothing [wOne] ⟨⟨"p"⟩⟩ ⟨.Nothing, .Continue⟩
     (by decide) rfl rfl⟩

/-! ## Claim C3 -/

/-- C3: in the parent loop of `build_graph_rec`, a failed recursive call for
a parent does not fail the caller — the warning is logged, no edge is added
for that parent, and the loop continues on the remaining parents with the
graph unchanged; a successful recursive call contributes one edge per
produced parent target and the loop continues. -/
theorem C3_parent_failure_recovery :
    (∀ (infs : List InferFn) (fuel : Nat) (g : TargetGraph) (log : List String)
       (our : Target) (p : RawTarget) (rest : List RawTarget) (e : String),
      build_graph_rec infs fuel g log p = some (.error e) →
        processParentsF (build_graph_rec infs fuel) our g log (p :: rest)
          = processParentsF (build_graph_rec infs fuel) our g (log ++ [warnMsg p e]) rest)
    ∧ (∀ (infs : List InferFn) (fuel : Nat) (g g' g'' : TargetGraph)
         (log log' : List String) (our : Target) (p : RawTarget) (rest : List RawTarget)
         (pts : List Target),
        build_graph_rec infs fuel g log p = some (.ok (g', log', pts)) →
        addEdges g' pts our = some g'' →
        processParentsF (build_graph_rec infs fuel) our g log (p :: rest)
          = processParentsF (build_graph_rec infs fuel) our g'' log' rest) := by
  constructor
  · intro infs fuel g log our p rest e h
    simp only [processParentsF, h]
  · intro infs fuel g g' g'' log log' our p rest pts h ha
    simp only [processParentsF, h, ha]

/-- A plugin whose inference fails for the package named `bad` and yields a
parentless target otherwise. -/
def wC3 : InferFn := fun raw =>
  if raw.name.val = "bad" then .error "boom"
  else .ok ⟨.One ⟨⟨raw.name, "f"⟩, [], []⟩, .Continue⟩

/-- C3 witness: a concrete failing parent is logged and skipped. -/
theorem C3_witness :
    processParentsF (build_graph_rec [wC3] 1) ⟨⟨"me"⟩, "f"⟩ TargetGraph.new [] [⟨⟨"bad"⟩⟩]
      = processParentsF (build_graph_rec [wC3] 1) ⟨⟨"me"⟩, "f"⟩ TargetGraph.new
          ([] ++ [warnMsg ⟨⟨"bad"⟩⟩ "failed in building graph of targets: boom"]) [] :=
  C3_parent_failure_recovery.1 [wC3] 1 TargetGraph.new [] ⟨⟨"me"⟩, "f"⟩ ⟨⟨"bad"⟩⟩ []
    "failed in building graph of targets: boom" (by decide)

/-! ## Claim C4 -/

/-- Monotonicity of the parent loop in the recursive call. -/
theorem processParentsF_mono
    (f f' : TargetGraph → List String → RawTarget →
      Option (Except String (TargetGraph × List String × List Target)))
    (hf : ∀ g log p r, f g log p = some r → f' g log p = some r) (our : Target) :
    ∀ (ps : List RawTarget) (g : TargetGraph) (log : List String)
      (r : TargetGraph × List String),
      processParentsF f our g log ps = some r → processParentsF f' our g log ps = some r := by
  intro ps
  induction ps with
  | nil => intro g log r h; exact h
  | cons p rest ih =>
    intro g log r h
    simp only [processParentsF] at h ⊢
    cases hp : f g log p with
    | none => simp [hp] at h
    | some x =>
      simp only [hp] at h
      rw [hf g log p x hp]
      cases x with
      | error e => exact ih _ _ _ h
      | ok y =>
        obtain ⟨g', log', pts⟩ := y
        simp only at h ⊢
        cases ha : addEdges g' pts our with
        | none => simp [ha] at h
        | some g'' =>
          simp only [ha] at h ⊢
          exact ih _ _ _ h

/-- Monotonicity of the produced-target loop in the recursive call. -/
theorem processSinglesF_mono
    (f f' : TargetGraph → List String → RawTarget →
      Option (Except String (TargetGraph × List String × List Target)))
    (hf : ∀ g log p r, f g log p = some r → f' g log p = some r) :
    ∀ (ss : List Single) (g : TargetGraph) (log : List String)
      (r : TargetGraph × List String),
      processSinglesF f g log ss = some r → processSinglesF f' g log ss = some r := by
  intro ss
  induction ss with
  | nil => intro g log r h; exact h
  | cons s rest ih =>
    intro g log r h
    simp only [processSinglesF] at h ⊢
    by_cases hc : g.contains_node s.target
    · rw [if_pos hc] at h ⊢
      exact ih _ _ _ h
    · rw [if_neg hc] at h ⊢
      cases hp : processParentsF f s.target (g.add_node s.target) log s.parents with
      | none => simp [hp] at h
      | some gl =>
        simp only [hp] at h
        rw [processParentsF_mono f f' hf s.target s.parents _ _ gl hp]
        obtain ⟨g', log'⟩ := gl
        exact ih _ _ _ h

/-- One-step unfolding of `build_graph_rec` at positive fuel. -/
theorem build_graph_rec_succ (infs : List InferFn) (fuel : Nat) (g : TargetGraph)
    (log : List String) (raw : RawTarget) :
    build_graph_rec infs (fuel + 1) g log raw
      = match run_inf infs raw with
        | .error e => some (.error e)
        | .ok singles =>
          match processSinglesF (build_graph_rec infs fuel) g log singles with
          | none => none
          | some (g', log') => some (.ok (g', log', singles.map (fun s => s.target))) := rfl

/-- A successful `build_graph_rec` result is stable under one more unit of
fuel. -/
theorem build_graph_rec_mono (infs : List InferFn) :
    ∀ (fuel : Nat) (g : TargetGraph) (log : List String) (raw : RawTarget)
      (r : Except String (TargetGraph × List String × List Target)),
      build_graph_rec infs fuel g log raw = some r →
      build_graph_rec infs (fuel + 1) g log raw = some r := by
  intro fuel
  induction fuel with
  | zero => intro g log raw r h; exact absurd h (by simp [build_graph_rec])
  | succ fuel ih =>
    intro g log raw r h
    rw [build_graph_rec_succ] at h
    rw [build_graph_rec_succ]
    cases hri : run_inf infs raw with
    | error e => simp only [hri] at h ⊢; exact h
    | ok singles =>
      simp only [hri] at h ⊢
      cases hps : processSinglesF (build_graph_rec infs fuel) g log singles with
      | none => simp [hps] at h
      | some gl =>
        simp only [hps] at h
        have hps' : processSinglesF (build_graph_rec infs (fuel + 1)) g log singles = some gl :=
          processSinglesF_mono (build_graph_rec infs fuel) (build_graph_rec infs (fuel + 1))
            (fun g' log' p' r' h' => ih g' log' p' r' h') singles g log gl hps
        simp only [hps']
        obtain ⟨g', log'⟩ := gl
        exact h

/-- A successful `build_graph_rec` result is stable under any larger fuel. -/
theorem build_graph_rec_mono_le (infs : List InferFn) (fuel fuel' : Nat) (hle : fuel ≤ fuel')
    (g : TargetGraph) (log : List String) (raw : RawTarget)
    (r : Except String (TargetGraph × List String × List Target))
    (h : build_graph_rec infs fuel g log raw = some r) :
    build_graph_rec infs fuel' g log raw = some r := by
  induction hle with
  | refl => exact h
  | step _ ih => exact build_graph_rec_mono infs _ _ _ _ _ ih

/-- The inference map of a two-package dependency cycle: package `pkga`
declares `pkgb` as a parent and `pkgb` declares `pkga`. -/
def cycPlugin : InferFn := fun raw =>
  if raw.name.val = "pkga" then
    .ok ⟨.One ⟨⟨⟨"pkga"⟩, "cargo"⟩, [⟨⟨"pkgb"⟩⟩], []⟩, .Continue⟩
  else if raw.name.val = "pkgb" then
    .ok ⟨.One ⟨⟨⟨"pkgb"⟩, "cargo"⟩, [⟨⟨"pkga"⟩⟩], []⟩, .Continue⟩
  else .ok ⟨.Nothing, .Continue⟩

/-- The graph the builder produces on the cyclic input: both targets and
both edges. -/
def cycGraph : TargetGraph :=
  ⟨[⟨⟨"pkga"⟩, "cargo"⟩, ⟨⟨"pkgb"⟩, "cargo"⟩], [(0, 1), (1, 0)]⟩

/-- C4 counterexample: on the cyclic input `pkga ↔ pkgb`, `build_graph`
terminates at recursion depth 3 (it does not recurse without bound), because
a target is added to the graph before its parents are recursed and the
already-present guard therefore fires on the nested revisit; the run
completes with both nodes, both edges and no warning. -/
theorem C4_counterexample :
    build_graph [cycPlugin] 3 [⟨⟨"pkga"⟩⟩]
      = some (.ok (cycGraph, [], [⟨⟨"pkga"⟩, "cargo"⟩])) := by decide

/-- C4 amended: `build_graph_rec` inserts a produced target as a graph node
before recursing into that target's parents, so on the cyclic input
`pkga ↔ pkgb` the already-present guard fires at the nested revisit and
`build_graph` terminates — for every recursion-depth budget of at least 3 it
returns the same finished graph (both nodes, both edges) rather than
consuming all the fuel. -/
theorem C4_amended_cycle_terminates :
    ∀ fuel : Nat, 3 ≤ fuel →
      build_graph [cycPlugin] fuel [⟨⟨"pkga"⟩⟩]
        = some (.ok (cycGraph, [], [⟨⟨"pkga"⟩, "cargo"⟩])) := by
  intro fuel hle
  have hrec : build_graph_rec [cycPlugin] fuel TargetGraph.new [] ⟨⟨"pkga"⟩⟩
      = some (.ok (cycGraph, [], [⟨⟨"pkga"⟩, "cargo"⟩])) :=
    build_graph_rec_mono_le [cycPlugin] 3 fuel hle _ _ _ _ (by decide)
  simp [build_graph, buildGraphSeeds, hrec]

/-- C4 witness: the cyclic input also terminates with a larger budget. -/
theorem C4_witness :
    build_graph [cycPlugin] 9 [⟨⟨"pkga"⟩⟩]
      = some (.ok (cycGraph, [], [⟨⟨"pkga"⟩, "cargo"⟩])) :=
  C4_amended_cycle_terminates 9 (by decide)

/-! ## Claim C8 -/

/-- A successfully resolved raw target's name never starts with `/`. -/
theorem resolve_ok_not_abs (rel : BuildSystemPath) (rel_to : RawTarget) (raw : RawTarget)
    (h : resolve_rel_path rel rel_to = .ok raw) :
    startsWithStr "/" raw.name.val = false :=
  ((validate_ok_iff _).mp (resolve_ok_validate rel rel_to raw h)).2.1

/-- Two strings differing on a leading `/` are different. -/
theorem ne_of_abs_flag {a b : String} (ha : startsWithStr "/" a = true)
    (hb : startsWithStr "/" b = false) : b ≠ a := by
  intro h
  subst h
  rw [ha] at hb
  exact absurd hb (by simp)

/-- An absolute dependency path of the Cargo manifest lands in the failed
parents of `deps_to_raw_targets`. -/
theorem deps_abs_mem (t : RawTarget) :
    ∀ (deps : List (String × Dependency)) (nm p : String),
      (nm, Dependency.Object (some p)) ∈ deps → startsWithStr "/" p = true →
      (⟨p, "absolute paths are not allowed"⟩ : FailedParent) ∈ (deps_to_raw_targets t deps).2 := by
  intro deps
  induction deps with
  | nil => intro nm p hm _; exact absurd hm (by simp)
  | cons hd rest ih =>
    intro nm p hm habs
    obtain ⟨nm', dep⟩ := hd
    rcases List.mem_cons.mp hm with heq | hm'
    · cases heq
      simp only [deps_to_raw_targets]
      have : (BuildSystemPath.mk p .Posix).is_absolute = true := habs
      rw [if_pos this]
      exact List.mem_cons_self _ _
    · have htail := ih nm p hm' habs
      cases dep with
      | Simple s => exact htail
      | Object op =>
        cases op with
        | none => exact htail
        | some q =>
          simp only [deps_to_raw_targets]
          by_cases hq : (BuildSystemPath.mk q .Posix).is_absolute = true
          · rw [if_pos hq]
            exact List.mem_cons_of_mem _ htail
          · rw [if_neg hq]
            cases hres : resolve_rel_path ⟨q, .Posix⟩ t with
            | ok prt => simp only [hres]; exact htail
            | error e => simp only [hres]; exact List.mem_cons_of_mem _ htail

/-- Every successful parent of `deps_to_raw_targets` has a non-absolute
name. -/
theorem deps_success_not_abs (t : RawTarget) :
    ∀ (deps : List (String × Dependency)) (rt : RawTarget),
      rt ∈ (deps_to_raw_targets t deps).1 → startsWithStr "/" rt.name.val = false := by
  intro deps
  induction deps with
  | nil => intro rt hm; exact absurd hm (by simp [deps_to_raw_targets])
  | cons hd rest ih =>
    intro rt hm
    obtain ⟨nm', dep⟩ := hd
    cases dep with
    | Simple s => exact ih rt hm
    | Object op =>
      cases op with
      | none => exact ih rt hm
      | some q =>
        simp only [deps_to_raw_targets] at hm
        by_cases hq : (BuildSystemPath.mk q .Posix).is_absolute = true
        · rw [if_pos hq] at hm
          exact ih rt hm
        · rw [if_neg hq] at hm
          cases hres : resolve_rel_path ⟨q, .Posix⟩ t with
          | ok prt =>
            simp only [hres] at hm
            rcases List.mem_cons.mp hm with rfl | hm'
            · exact resolve_ok_not_abs ⟨q, .Posix⟩ t rt hres
            · exact ih rt hm'
          | error e =>
            simp only [hres] at hm
            exact ih rt hm

/-- An absolute path extracted from a requirements file lands in the failed
parents of the python-requirements resolution loop. -/
theorem pyAll_abs_mem (t : RawTarget) :
    ∀ (paths : List String) (p : String),
      p ∈ paths → startsWithStr "/" p = true →
      (⟨p, "absolute paths are not allowed"⟩ : FailedParent) ∈ (pyResolveAll t paths).2 := by
  intro paths
  induction paths with
  | nil => intro p hm _; exact absurd hm (by simp)
  | cons q rest ih =>
    intro p hm habs
    rcases List.mem_cons.mp hm with rfl | hm'
    · simp only [pyResolveAll]
      have : (BuildSystemPath.mk p .Posix).is_absolute = true := habs
      rw [if_pos this]
      exact List.mem_cons_self _ _
    · have htail := ih p hm' habs
      simp only [pyResolveAll]
      by_cases hq : (BuildSystemPath.mk q .Posix).is_absolute = true
      · rw [if_pos hq]
        exact List.mem_cons_of_mem _ htail
      · rw [if_neg hq]
        cases hres : resolve_rel_path ⟨q, .Posix⟩ t with
        | ok prt => simp only [hres]; exact htail
        | error e => simp only [hres]; exact List.mem_cons_of_mem _ htail

/-- Every successful parent of the python-requirements resolution loop has a
non-absolute name. -/
theorem pyAll_success_not_abs (t : RawTarget) :
    ∀ (paths : List String) (rt : RawTarget),
      rt ∈ (pyResolveAll t paths).1 → startsWithStr "/" rt.name.val = false := by
  intro paths
  induction paths with
  | nil => intro rt hm; exact absurd hm (by simp [pyResolveAll])
  | cons q rest ih =>
    intro rt hm
    simp only [pyResolveAll] at hm
    by_cases hq : (BuildSystemPath.mk q .Posix).is_absolute = true
    · rw [if_pos hq] at hm
      exact ih rt hm
    · rw [if_neg hq] at hm
      cases hres : resolve_rel_path ⟨q, .Posix⟩ t with
      | ok prt =>
        simp only [hres] at hm
        rcases List.mem_cons.mp hm with rfl | hm'
        · exact resolve_ok_not_abs ⟨q, .Posix⟩ t rt hres
        · exact ih rt hm'
      | error e =>
        simp only [hres] at hm
        exact ih rt hm

/-- C8: a declared dependency path that is absolute is recorded as a Failed
Parent with a reason rather than failing inference: in the Cargo dependency
loop it lands in the failed list and never among the successful parents, and
in the python-requirements inferrer the package's inference still succeeds
with a `One` result whose `failed_parents` contains the absolute path and
whose `parents` never carry it. -/
theorem C8_absolute_path_failed_parent :
    (∀ (t : RawTarget) (deps : List (String × Dependency)) (nm p : String),
      (nm, Dependency.Object (some p)) ∈ deps →
      (BuildSystemPath.mk p .Posix).is_absolute = true →
        (⟨p, "absolute paths are not allowed"⟩ : FailedParent) ∈ (deps_to_raw_targets t deps).2
        ∧ ∀ rt ∈ (deps_to_raw_targets t deps).1, rt.name.val ≠ p)
    ∧ (∀ (t : RawTarget) (content p : String),
        p ∈ get_file_names content →
        (BuildSystemPath.mk p .Posix).is_absolute = true →
        isOkE (Target.from_raw_target t "python_requirements") = true →
        ∃ s : Single,
          py_from_raw_target (some content) t = .ok ⟨.One s, .Continue⟩
          ∧ (⟨p, "absolute paths are not allowed"⟩ : FailedParent) ∈ s.failed_parents
          ∧ ∀ rt ∈ s.parents, rt.name.val ≠ p) := by
  constructor
  · intro t deps nm p hm habs
    refine ⟨deps_abs_mem t deps nm p hm habs, ?_⟩
    intro rt hrt
    exact ne_of_abs_flag habs (deps_success_not_abs t deps rt hrt)
  · intro t content p hp habs hok
    obtain ⟨target, htarget⟩ := (isOkE_iff _).mp hok
    refine ⟨⟨target, (pyResolveAll t (get_file_names content)).1,
      (pyResolveAll t (get_file_names content)).2⟩, ?_, ?_, ?_⟩
    · simp only [py_from_raw_target, htarget]
    · exact pyAll_abs_mem t (get_file_names content) p hp habs
    · intro rt hrt
      exact ne_of_abs_flag habs (pyAll_success_not_abs t (get_file_names content) rt hrt)

/-- C8 witness: the absolute path `/abs` declared by a Cargo dependency and
by a requirements line ends up in the failed parents of both inferrers. -/
theorem C8_witness :
    ((⟨"/abs", "absolute paths are not allowed"⟩ : FailedParent)
        ∈ (deps_to_raw_targets ⟨⟨"us"⟩⟩ [("yo", Dependency.Object (some "/abs"))]).2
      ∧ ∀ rt ∈ (deps_to_raw_targets ⟨⟨"us"⟩⟩ [("yo", Dependency.Object (some "/abs"))]).1,
          rt.name.val ≠ "/abs")
    ∧ ∃ s : Single,
        py_from_raw_target (some "he @ file:///abs") ⟨⟨"us"⟩⟩ = .ok ⟨.One s, .Continue⟩
        ∧ (⟨"/abs", "absolute paths are not allowed"⟩ : FailedParent) ∈ s.failed_parents
        ∧ ∀ rt ∈ s.parents, rt.name.val ≠ "/abs" :=
  ⟨C8_absolute_path_failed_parent.1 ⟨⟨"us"⟩⟩ [("yo", Dependency.Object (some "/abs"))]
      "yo" "/abs" (by decide) (by decide),
   C8_absolute_path_failed_parent.2 ⟨⟨"us"⟩⟩ "he @ file:///abs" "/abs"
      (by decide) (by decide) (by decide)⟩

/-! ## Claim C1 -/

/-- Number of edges whose source is not yet discovered: the potential that
strictly decreases at every DFS step together with the stack length. -/
def unvisitedEdges (edges : List (Nat × Nat)) (visited : List Nat) : Nat :=
  (edges.filter (fun e => decide (e.1 ∉ visited))).length

theorem unvisitedEdges_nil (edges : List (Nat × Nat)) :
    unvisitedEdges edges [] = edges.length := by
  unfold unvisitedEdges
  have h : edges.filter (fun e => decide (e.1 ∉ ([] : List Nat))) = edges :=
    List.filter_eq_self.mpr (fun a _ => by simp)
  rw [h]

/-- Marking a fresh node removes exactly its outgoing edges from the
unvisited count. -/
theorem unvisitedEdges_cons (edges : List (Nat × Nat)) (n : Nat) (visited : List Nat)
    (h : n ∉ visited) :
    unvisitedEdges edges (n :: visited) + (succs edges n).length
      = unvisitedEdges edges visited := by
  unfold unvisitedEdges succs
  rw [List.length_map]
  induction edges with
  | nil => simp
  | cons e rest ih =>
    by_cases h1 : e.1 = n
    · have c1 : (decide (e.1 ∉ n :: visited)) = false := by simp [h1]
      have c2 : (e.1 == n) = true := by simp [h1]
      have c3 : (decide (e.1 ∉ visited)) = true := by simp [h1, h]
      simp only [List.filter_cons, c1, c2, c3, List.length_cons, Bool.false_eq_true, if_false,
        if_true]
      omega
    · by_cases h2 : e.1 ∈ visited
      · have c1 : (decide (e.1 ∉ n :: visited)) = false := by simp [h2]
        have c2 : (e.1 == n) = false := by simp [h1]
        have c3 : (decide (e.1 ∉ visited)) = false := by simp [h2]
        simp only [List.filter_cons, c1, c2, c3, Bool.false_eq_true, if_false]
        exact ih
      · have c1 : (decide (e.1 ∉ n :: visited)) = true := by simp [h1, h2]
        have c2 : (e.1 == n) = false := by simp [h1]
        have c3 : (decide (e.1 ∉ visited)) = true := by simp [h2]
        simp only [List.filter_cons, c1, c2, c3, List.length_cons, Bool.false_eq_true, if_false,
          if_true]
        omega

/-- Prepending an edge to a reachability path. -/
theorem ReachIdx_head {edges : List (Nat × Nat)} {i j k : Nat}
    (hij : (i, j) ∈ edges) (hjk : ReachIdx edges j k) : ReachIdx edges i k := by
  induction hjk with
  | refl => exact ReachIdx.tail (ReachIdx.refl i) hij
  | tail _ hedge ih => exact ReachIdx.tail ih hedge

/-- Successor membership is edge membership. -/
theorem mem_succs {edges : List (Nat × Nat)} {n m : Nat} :
    m ∈ succs edges n ↔ (n, m) ∈ edges := by
  unfold succs
  constructor
  · intro hm
    obtain ⟨e, he, heq⟩ := List.mem_map.mp hm
    have he2 := List.mem_filter.mp he
    obtain ⟨a, b⟩ := e
    have h1 : a = n := by simpa using he2.2
    have h2 : b = m := heq
    subst h1
    subst h2
    exact he2.1
  · intro h
    exact List.mem_map.mpr ⟨(n, m), List.mem_filter.mpr ⟨h, by simp⟩, rfl⟩

/-- Soundness of the DFS loop at any fuel: the visit order is duplicate-free,
avoids already-visited nodes, and only contains nodes reachable from the
stack. -/
theorem dfs_sound (edges : List (Nat × Nat)) :
    ∀ (fuel : Nat) (stack visited : List Nat),
      (dfsLoop edges fuel stack visited).Nodup
      ∧ ∀ m ∈ dfsLoop edges fuel stack visited,
          m ∉ visited ∧ ∃ s ∈ stack, ReachIdx edges s m := by
  intro fuel
  induction fuel with
  | zero =>
    intro stack visited
    cases stack <;> simp [dfsLoop]
  | succ fuel ih =>
    intro stack visited
    cases stack with
    | nil => simp [dfsLoop]
    | cons n rest =>
      by_cases hv : n ∈ visited
      · rw [show dfsLoop edges (fuel + 1) (n :: rest) visited
            = dfsLoop edges fuel rest visited from by simp [dfsLoop, hv]]
        refine ⟨(ih rest visited).1, ?_⟩
        intro m hm
        obtain ⟨h1, s, hs, hr⟩ := (ih rest visited).2 m hm
        exact ⟨h1, s, List.mem_cons_of_mem _ hs, hr⟩
      · rw [show dfsLoop edges (fuel + 1) (n :: rest) visited
            = n :: dfsLoop edges fuel (succs edges n ++ rest) (n :: visited) from by
              simp [dfsLoop, hv]]
        have hrec := ih (succs edges n ++ rest) (n :: visited)
        constructor
        · rw [List.nodup_cons]
          exact ⟨fun hn => ((hrec.2 n hn).1) (List.mem_cons_self _ _), hrec.1⟩
        · intro m hm
          rcases List.mem_cons.mp hm with rfl | hm'
          · exact ⟨hv, m, List.mem_cons_self _ _, ReachIdx.refl m⟩
          · obtain ⟨h1, s, hs, hr⟩ := hrec.2 m hm'
            refine ⟨fun hmv => h1 (List.mem_cons_of_mem _ hmv), ?_⟩
            rcases List.mem_append.mp hs with hss | hsr
            · exact ⟨n, List.mem_cons_self _ _, ReachIdx_head (mem_succs.mp hss) hr⟩
            · exact ⟨s, List.mem_cons_of_mem _ hsr, hr⟩

/-- With sufficient fuel, every stack entry is visited or emitted. -/
theorem dfs_covers (edges : List (Nat × Nat)) :
    ∀ (fuel : Nat) (stack visited : List Nat),
      stack.length + unvisitedEdges edges visited ≤ fuel →
      ∀ s ∈ stack, s ∈ visited ∨ s ∈ dfsLoop edges fuel stack visited := by
  intro fuel
  induction fuel with
  | zero =>
    intro stack visited hfu s hs
    have hnil : stack = [] := List.eq_nil_of_length_eq_zero (by omega)
    subst hnil
    exact absurd hs (by simp)
  | succ fuel ih =>
    intro stack visited hfu s hs
    cases stack with
    | nil => exact absurd hs (by simp)
    | cons n rest =>
      by_cases hv : n ∈ visited
      · rw [show dfsLoop edges (fuel + 1) (n :: rest) visited
            = dfsLoop edges fuel rest visited from by simp [dfsLoop, hv]]
        rcases List.mem_cons.mp hs with rfl | hs'
        · exact Or.inl hv
        · have hfu' : rest.length + unvisitedEdges edges visited ≤ fuel := by
            simp only [List.length_cons] at hfu
            omega
          exact ih rest visited hfu' s hs'
      · rw [show dfsLoop edges (fuel + 1) (n :: rest) visited
            = n :: dfsLoop edges fuel (succs edges n ++ rest) (n :: visited) from by
              simp [dfsLoop, hv]]
        rcases List.mem_cons.mp hs with rfl | hs'
        · exact Or.inr (List.mem_cons_self _ _)
        · have hsplit := unvisitedEdges_cons edges n visited hv
          have hfu' : (succs edges n ++ rest).length
              + unvisitedEdges edges (n :: visited) ≤ fuel := by
            rw [List.length_append]
            simp only [List.length_cons] at hfu
            omega
          rcases ih (succs edges n ++ rest) (n :: visited) hfu' s
              (List.mem_append.mpr (Or.inr hs')) with hv2 | hm
          · rcases List.mem_cons.mp hv2 with rfl | hv3
            · exact Or.inr (List.mem_cons_self _ _)
            · exact Or.inl hv3
          · exact Or.inr (List.mem_cons_of_mem _ hm)

/-- With sufficient fuel, the emitted set is closed under successors, up to
already-visited nodes. -/
theorem dfs_closed (edges : List (Nat × Nat)) :
    ∀ (fuel : Nat) (stack visited : List Nat),
      stack.length + unvisitedEdges edges visited ≤ fuel →
      ∀ m m', m ∈ dfsLoop edges fuel stack visited → (m, m') ∈ edges →
        m' ∈ visited ∨ m' ∈ dfsLoop edges fuel stack visited := by
  intro fuel
  induction fuel with
  | zero =>
    intro stack visited _ m m' hm _
    cases stack with
    | nil => simp [dfsLoop] at hm
    | cons n rest => simp [dfsLoop] at hm
  | succ fuel ih =>
    intro stack visited hfu m m' hm hedge
    cases stack with
    | nil => simp [dfsLoop] at hm
    | cons n rest =>
      by_cases hv : n ∈ visited
      · rw [show dfsLoop edges (fuel + 1) (n :: rest) visited
            = dfsLoop edges fuel rest visited from by simp [dfsLoop, hv]] at hm ⊢
        have hfu' : rest.length + unvisitedEdges edges visited ≤ fuel := by
          simp only [List.length_cons] at hfu
          omega
        exact ih rest visited hfu' m m' hm hedge
      · rw [show dfsLoop edges (fuel + 1) (n :: rest) visited
            = n :: dfsLoop edges fuel (succs edges n ++ rest) (n :: visited) from by
              simp [dfsLoop, hv]] at hm ⊢
        have hsplit := unvisitedEdges_cons edges n visited hv
        have hfu' : (succs edges n ++ rest).length
            + unvisitedEdges edges (n :: visited) ≤ fuel := by
          rw [List.length_append]
          simp only [List.length_cons] at hfu
          omega
        rcases List.mem_cons.mp hm with rfl | hm'
        · have hmem : m' ∈ succs edges m ++ rest :=
            List.mem_append.mpr (Or.inl (mem_succs.mpr hedge))
          rcases dfs_covers edges fuel _ _ hfu' m' hmem with hv2 | hout
          · rcases List.mem_cons.mp hv2 with rfl | hv3
            · exact Or.inr (List.mem_cons_self _ _)
            · exact Or.inl hv3
          · exact Or.inr (List.mem_cons_of_mem _ hout)
        · rcases ih (succs edges n ++ rest) (n :: visited) hfu' m m' hm' hedge with hv2 | hout
          · rcases List.mem_cons.mp hv2 with rfl | hv3
            · exact Or.inr (List.mem_cons_self _ _)
            · exact Or.inl hv3
          · exact Or.inr (List.mem_cons_of_mem _ hout)

/-- Completeness: starting from an empty visited set with sufficient fuel,
every node reachable from a stack entry is emitted. -/
theorem dfs_reach_mem (edges : List (Nat × Nat)) (fuel : Nat) (stack : List Nat)
    (hfu : stack.length + edges.length ≤ fuel) :
    ∀ s m, s ∈ stack → ReachIdx edges s m → m ∈ dfsLoop edges fuel stack [] := by
  have hfu' : stack.length + unvisitedEdges edges [] ≤ fuel := by
    rw [unvisitedEdges_nil]
    exact hfu
  intro s m hs hr
  induction hr with
  | refl =>
    rcases dfs_covers edges fuel stack [] hfu' s hs with hv | h
    · exact absurd hv (by simp)
    · exact h
  | tail _ hedge ih =>
    rcases dfs_closed edges fuel stack [] hfu' _ _ ih hedge with hv | h
    · exact absurd hv (by simp)
    · exact h

/-- Reachability stays inside the valid index range. -/
theorem reach_lt {edges : List (Nat × Nat)} {i j : Nat} (h : ReachIdx edges i j) (N : Nat)
    (hi : i < N) (hE : ∀ e ∈ edges, e.2 < N) : j < N := by
  induction h with
  | refl => exact hi
  | tail _ hedge _ => exact hE _ hedge

theorem idxOf_get (l : List Target) : ∀ (t : Target) (i : Nat),
    idxOf l t = some i → l.get? i = some t := by
  induction l with
  | nil => intro t i h; simp [idxOf] at h
  | cons x xs ih =>
    intro t i h
    simp only [idxOf] at h
    by_cases hx : x = t
    · rw [if_pos hx] at h
      injection h with h1
      subst h1
      simp [hx]
    · rw [if_neg hx] at h
      cases hxs : idxOf xs t with
      | none => rw [hxs] at h; simp at h
      | some i' =>
        rw [hxs] at h
        simp only [Option.map_some'] at h
        injection h with h1
        subst h1
        rw [List.get?_cons_succ]
        exact ih t i' hxs

theorem idxOf_mem (l : List Target) : ∀ t : Target, t ∈ l → ∃ i, idxOf l t = some i := by
  induction l with
  | nil => intro t h; exact absurd h (by simp)
  | cons x xs ih =>
    intro t ht
    by_cases hx : x = t
    · exact ⟨0, by simp [idxOf, hx]⟩
    · have ht' : t ∈ xs := by
        rcases List.mem_cons.mp ht with rfl | h
        · exact absurd rfl hx
        · exact h
      obtain ⟨i, hi⟩ := ih t ht'
      exact ⟨i + 1, by simp [idxOf, hx, hi]⟩

theorem idxOf_eq_none (l : List Target) (t : Target) (h : t ∉ l) : idxOf l t = none := by
  induction l with
  | nil => rfl
  | cons x xs ih =>
    have hx : ¬x = t := fun he => h (he ▸ List.mem_cons_self x xs)
    simp only [idxOf, if_neg hx, ih (fun hm => h (List.mem_cons_of_mem _ hm))]
    rfl

theorem get_idxOf (l : List Target) (hnd : l.Nodup) : ∀ (i : Nat) (t : Target),
    l.get? i = some t → idxOf l t = some i := by
  induction l with
  | nil => intro i t h; simp at h
  | cons x xs ih =>
    intro i t h
    rw [List.nodup_cons] at hnd
    cases i with
    | zero =>
      rw [List.get?_cons_zero] at h
      injection h with h1
      simp [idxOf, h1]
    | succ i' =>
      rw [List.get?_cons_succ] at h
      have ht : t ∈ xs := List.get?_mem h
      have hx : ¬x = t := fun he => hnd.1 (he ▸ ht)
      simp only [idxOf, if_neg hx, ih hnd.2 i' t h]
      rfl

theorem idxOf_lt (l : List Target) (t : Target) (i : Nat) (h : idxOf l t = some i) :
    i < l.length := by
  obtain ⟨hlt, -⟩ := List.get?_eq_some.mp (idxOf_get l t i h)
  exact hlt

theorem getIndices_ok (g : TargetGraph) :
    ∀ ts : List Target, (∀ s ∈ ts, s ∈ g.nodes) →
      ∃ is, getIndices g ts = .ok is
        ∧ (∀ i ∈ is, ∃ s ∈ ts, idxOf g.nodes s = some i)
        ∧ (∀ s ∈ ts, ∃ i ∈ is, idxOf g.nodes s = some i) := by
  intro ts
  induction ts with
  | nil => intro _; exact ⟨[], rfl, by simp, by simp⟩
  | cons t rest ih =>
    intro hmem
    obtain ⟨i, hi⟩ := idxOf_mem g.nodes t (hmem t (List.mem_cons_self _ _))
    obtain ⟨is, his, hfwd, hbwd⟩ := ih (fun s hs => hmem s (List.mem_cons_of_mem _ hs))
    refine ⟨i :: is, by simp only [getIndices, hi, his], ?_, ?_⟩
    · intro j hj
      rcases List.mem_cons.mp hj with rfl | hj'
      · exact ⟨t, List.mem_cons_self _ _, hi⟩
      · obtain ⟨s, hs, hsi⟩ := hfwd j hj'
        exact ⟨s, List.mem_cons_of_mem _ hs, hsi⟩
    · intro s hs
      rcases List.mem_cons.mp hs with rfl | hs'
      · exact ⟨i, List.mem_cons_self _ _, hi⟩
      · obtain ⟨j, hj, hji⟩ := hbwd s hs'
        exact ⟨j, List.mem_cons_of_mem _ hj, hji⟩

theorem getIndices_error (g : TargetGraph) :
    ∀ (ts : List Target) (t : Target), t ∈ ts → t ∉ g.nodes →
      ∃ e, getIndices g ts = .error e := by
  intro ts
  induction ts with
  | nil => intro t hm _; exact absurd hm (by simp)
  | cons u rest ih =>
    intro t hm hnot
    rcases List.mem_cons.mp hm with rfl | hm'
    · refine ⟨"error while adding edge: dest index not found", ?_⟩
      simp [getIndices, idxOf_eq_none g.nodes t hnot]
    · cases hu : idxOf g.nodes u with
      | none =>
        refine ⟨"error while adding edge: dest index not found", ?_⟩
        simp [getIndices, hu]
      | some iu =>
        obtain ⟨e, he⟩ := ih t hm' hnot
        refine ⟨e, ?_⟩
        simp [getIndices, hu, he]

theorem idxsToTargets_ok (g : TargetGraph) :
    ∀ is : List Nat, (∀ i ∈ is, i < g.nodes.length) →
      ∃ ts, idxsToTargets g is = .ok ts
        ∧ (∀ t, t ∈ ts ↔ ∃ i ∈ is, g.nodes.get? i = some t)
        ∧ (g.nodes.Nodup → is.Nodup → ts.Nodup) := by
  intro is
  induction is with
  | nil => intro _; exact ⟨[], rfl, by simp, fun _ _ => List.nodup_nil⟩
  | cons i rest ih =>
    intro hlt
    have hi : i < g.nodes.length := hlt i (List.mem_cons_self _ _)
    obtain ⟨t0, ht0⟩ : ∃ t0, g.nodes.get? i = some t0 := by
      cases hg : g.nodes.get? i with
      | none =>
        have := List.get?_eq_none.mp hg
        omega
      | some t0 => exact ⟨t0, rfl⟩
    obtain ⟨ts, hts, hiff, hnd⟩ := ih (fun j hj => hlt j (List.mem_cons_of_mem _ hj))
    refine ⟨t0 :: ts, by simp only [idxsToTargets, ht0, hts], ?_, ?_⟩
    · intro t
      constructor
      · intro hm
        rcases List.mem_cons.mp hm with rfl | hm'
        · exact ⟨i, List.mem_cons_self _ _, ht0⟩
        · obtain ⟨j, hj, hjt⟩ := (hiff t).mp hm'
          exact ⟨j, List.mem_cons_of_mem _ hj, hjt⟩
      · rintro ⟨j, hj, hjt⟩
        rcases List.mem_cons.mp hj with rfl | hj'
        · rw [ht0] at hjt
          injection hjt with h1
          rw [← h1]
          exact List.mem_cons_self _ _
        · exact List.mem_cons_of_mem _ ((hiff t).mpr ⟨j, hj', hjt⟩)
    · intro hgnd hind
      rw [List.nodup_cons] at hind
      rw [List.nodup_cons]
      refine ⟨?_, hnd hgnd hind.2⟩
      intro hmem
      obtain ⟨j, hj, hjt⟩ := (hiff t0).mp hmem
      have hij : i = j := by
        have h1 := get_idxOf g.nodes hgnd i t0 ht0
        have h2 := get_idxOf g.nodes hgnd j t0 hjt
        rw [h1] at h2
        injection h2
      exact hind.1 (hij ▸ hj)

/-- A three-node graph with edges a→b, b→c and a→c. -/
def gThree : TargetGraph :=
  ⟨[⟨⟨"a"⟩, "f"⟩, ⟨⟨"b"⟩, "f"⟩, ⟨⟨"c"⟩, "f"⟩], [(0, 1), (1, 2), (0, 2)]⟩

/-- A one-node graph with no edges. -/
def gSolo : TargetGraph := ⟨[⟨⟨"t"⟩, "f"⟩], []⟩

/-- C1: on a well-formed graph whose start targets are all present, `rdeps`
returns exactly the targets reachable from the start set along outgoing
edges, each exactly once and including the starts themselves; a start absent
from the graph is an error; concretely, with edges a→b, b→c, a→c the result
for `[a]` is `[a, b, c]`, and a node with no dependents yields only itself. -/
theorem C1_rdeps_reachability :
    (∀ (g : TargetGraph) (starts : List Target), g.WF → (∀ s ∈ starts, s ∈ g.nodes) →
      ∃ res, g.rdeps starts = .ok res ∧ res.Nodup
        ∧ (∀ s ∈ starts, s ∈ res)
        ∧ ∀ t, t ∈ res ↔ ∃ s ∈ starts, g.Reaches s t)
    ∧ (∀ (g : TargetGraph) (starts : List Target) (t : Target),
        t ∈ starts → t ∉ g.nodes → ∃ e, g.rdeps starts = .error e)
    ∧ gThree.rdeps [⟨⟨"a"⟩, "f"⟩] = .ok [⟨⟨"a"⟩, "f"⟩, ⟨⟨"b"⟩, "f"⟩, ⟨⟨"c"⟩, "f"⟩]
    ∧ gSolo.rdeps [⟨⟨"t"⟩, "f"⟩] = .ok [⟨⟨"t"⟩, "f"⟩] := by
  refine ⟨?_, ?_, by decide, by decide⟩
  · intro g starts hwf hmem
    obtain ⟨is, his, hfwd, hbwd⟩ := getIndices_ok g starts hmem
    have hstack_mem : ∀ i ∈ is.reverse, ∃ s ∈ starts, idxOf g.nodes s = some i := by
      intro i hi
      exact hfwd i (List.mem_reverse.mp hi)
    have hE2 : ∀ e ∈ g.edges, e.2 < g.nodes.length := fun e he => (hwf.2 e he).2
    have horder_valid : ∀ j ∈ dfsLoop g.edges (is.reverse.length + g.edges.length)
        is.reverse [], j < g.nodes.length := by
      intro j hj
      obtain ⟨-, s, hs, hr⟩ := (dfs_sound g.edges (is.reverse.length + g.edges.length)
        is.reverse []).2 j hj
      obtain ⟨t0, -, ht0⟩ := hstack_mem s hs
      exact reach_lt hr g.nodes.length (idxOf_lt _ _ _ ht0) hE2
    obtain ⟨res, hres, hiff, hnd⟩ := idxsToTargets_ok g _ horder_valid
    refine ⟨res, ?_, ?_, ?_, ?_⟩
    · simp only [TargetGraph.rdeps, his]
      exact hres
    · exact hnd hwf.1 (dfs_sound g.edges (is.reverse.length + g.edges.length) is.reverse []).1
    · intro s hs
      obtain ⟨i, hiis, hsi⟩ := hbwd s hs
      have hin : i ∈ dfsLoop g.edges (is.reverse.length + g.edges.length) is.reverse [] :=
        dfs_reach_mem g.edges (is.reverse.length + g.edges.length) is.reverse (le_refl _)
          i i (List.mem_reverse.mpr hiis) (ReachIdx.refl i)
      exact (hiff s).mpr ⟨i, hin, idxOf_get _ _ _ hsi⟩
    · intro t
      constructor
      · intro ht
        obtain ⟨j, hj, hjt⟩ := (hiff t).mp ht
        obtain ⟨-, s_i, hsi_stk, hr⟩ := (dfs_sound g.edges
          (is.reverse.length + g.edges.length) is.reverse []).2 j hj
        obtain ⟨s, hs_starts, hs_idx⟩ := hstack_mem s_i hsi_stk
        exact ⟨s, hs_starts, s_i, j, hs_idx, get_idxOf g.nodes hwf.1 j t hjt, hr⟩
      · rintro ⟨s, hs, i, j, hi, hj, hr⟩
        obtain ⟨i', hi'is, hi'⟩ := hbwd s hs
        have hii : i' = i := by
          rw [hi] at hi'
          injection hi' with hval
          exact hval.symm
        subst hii
        have hin : j ∈ dfsLoop g.edges (is.reverse.length + g.edges.length) is.reverse [] :=
          dfs_reach_mem g.edges (is.reverse.length + g.edges.length) is.reverse (le_refl _)
            i' j (List.mem_reverse.mpr hi'is) hr
        exact (hiff t).mpr ⟨j, hin, idxOf_get _ _ _ hj⟩
  · intro g starts t ht hnot
    obtain ⟨e, he⟩ := getIndices_error g starts t ht hnot
    refine ⟨e, ?_⟩
    simp [TargetGraph.rdeps, he]

/-- C1 witness: the reachability specification applied to the three-node
graph, and the error case applied to an absent start. -/
theorem C1_witness :
    (∃ res, gThree.rdeps [⟨⟨"a"⟩, "f"⟩] = .ok res ∧ res.Nodup
        ∧ (∀ s ∈ ([⟨⟨"a"⟩, "f"⟩] : List Target), s ∈ res)
        ∧ ∀ t, t ∈ res ↔ ∃ s ∈ ([⟨⟨"a"⟩, "f"⟩] : List Target), gThree.Reaches s t)
    ∧ ∃ e, gSolo.rdeps [⟨⟨"b"⟩, "f"⟩] = .error e :=
  ⟨C1_rdeps_reachability.1 gThree [⟨⟨"a"⟩, "f"⟩] ⟨by decide, by decide⟩ (by decide),
   C1_rdeps_reachability.2.1 gSolo [⟨⟨"b"⟩, "f"⟩] ⟨⟨"b"⟩, "f"⟩ (by decide) (by decide)⟩
